import Mathlib

/-!
Verification of the diagnostic-logging core of the org-quicko/core-js library.

The development shallowly embeds four pieces of the source:

* `serializeF` / `serializeListF` — the recursive error-chain serializer
  `serialize` of `src/logger/format/ErrorFormat.ts` (lines 89-123), together
  with the call-scoped visited set created by the `ErrorFormat` transform.
  JavaScript object graphs may be cyclic, so values are represented as
  references (`JSVal.vRef`) into a finite heap `SerHeap`; the mutable
  `WeakSet` is threaded explicitly as a list of visited references, and the
  recursion carries fuel that is consumed exactly when the source descends
  into a not-yet-visited `Error` (the only place the source recurses).
* `MDC` — the AsyncLocalStorage-backed mapped diagnostic context of
  `src/logger/LoggerFactory.ts` (the `MDC` class).  Because
  `AsyncLocalStorage.run` restores the previous store by reference while
  `put` mutates the current store object in place, the embedding models
  context stores as references into a heap of objects, mirroring the
  JavaScript aliasing behaviour.
* `LoggerFactory.createLogger` / `LoggerFactory.getLogger` — the singleton
  factory of `src/logger/LoggerFactory.ts`.  The external
  `winston.createLogger` call, which may throw, is an explicit parameter.
* `RegistryFactory` — the `Map`-backed named-logger registry of
  `src/logger/factory/LoggerFactory.ts`.
-/

/-! ## JavaScript values and heaps for the error-chain serializer -/

/-- Values of the serializer's input language.  `vRef` is a reference into a
`SerHeap`; all other constructors are primitives, which the source returns
unchanged. -/
inductive JSVal where
  | undef
  | vNull
  | vBool (b : Bool)
  | vNum (n : Int)
  | vStr (s : String)
  | vRef (r : Nat)
deriving DecidableEq

/-- Data carried by an `Error` instance: the non-enumerable standard
properties `message`, `name`, `stack` and the optional `cause` read by
`serialize`.  `cause := none` models an absent/undefined cause. -/
structure ErrData where
  message : String
  name : String
  stack : String
  cause : Option JSVal
deriving DecidableEq

/-- A heap object.  `err = some e` means the object is an `Error` instance
(`value instanceof Error` is true) with standard properties `e`; `fields`
are the own enumerable properties (`Object.keys(value)`), in insertion
order. -/
structure JSObj where
  err : Option ErrData
  fields : List (String × JSVal)
deriving DecidableEq

/-- A finite JavaScript object graph: object number `r` is `h.get? r`.
Fields and causes may reference any object, including cyclically. -/
abbrev SerHeap := List JSObj

/-- Results of `serialize`.  `pass v` is a value returned as-is (the source
returns primitives and non-Error objects unchanged — for `vRef` this is a
live reference into the input heap); `sentinel` is the string
`"[Circular Reference]"` produced at a repeated Error; `errObj` is the plain
object built for an Error. -/
inductive SVal where
  | pass (v : JSVal)
  | sentinel
  | errObj (message name stack : String) (cause : SVal) (fields : List (String × SVal))

/-- Embeds the test `value instanceof Error` for a value of the heap. -/
def isErrRef (h : SerHeap) (v : JSVal) : Bool :=
  match v with
  | .vRef r =>
    match h.get? r with
    | some o => o.err.isSome
    | none => false
  | _ => false

/-- Embeds the loop `for (const key of Object.keys(value)) if (!(key in
serialized)) serialized[key] = serialize(value[key], seen)` of
`ErrorFormat.ts` lines 111-115: `taken` is the set of keys already present
in the object literal (initially `message`, `name`, `stack`, `cause`), `f`
is the recursive call with the current fuel, and the visited set `seen` is
threaded left to right exactly as the mutable `WeakSet` is. -/
def serializeListF (f : JSVal → List Nat → Option (SVal × List Nat)) :
    List String → List (String × JSVal) → List Nat → Option (List (String × SVal) × List Nat)
  | _, [], seen => some ([], seen)
  | taken, (k, v) :: rest, seen =>
    if k ∈ taken then serializeListF f taken rest seen
    else
      match f v seen with
      | none => none
      | some (sv, seen1) =>
        match serializeListF f (k :: taken) rest seen1 with
        | none => none
        | some (fs, seen2) => some ((k, sv) :: fs, seen2)

/-- Embeds `serialize(value, seen)` of `ErrorFormat.ts` lines 89-123.
`value == null` returns the value; an `Error` already in `seen` yields the
circular-reference sentinel; an unvisited `Error` is added to `seen` and
turned into a plain object whose `cause` is recursively serialized when it
is itself an `Error` (otherwise passed through), followed by the enumerable
extra fields; every other value — primitives and plain objects alike —
falls through to the final `return value`.  The `fuel` argument is a
termination bound consumed only when descending into an unvisited Error;
`none` means the bound was exhausted (the totality theorem shows a bound of
the number of Error objects in the heap always suffices). -/
def serializeF : Nat → SerHeap → JSVal → List Nat → Option (SVal × List Nat)
  | fuel, h, .vRef r, seen =>
    match h.get? r with
    | some o =>
      match o.err with
      | some e =>
        if r ∈ seen then some (.sentinel, seen)
        else
          match fuel with
          | 0 => none
          | fuel' + 1 =>
            match
              (match e.cause with
               | some c =>
                 if isErrRef h c then serializeF fuel' h c (r :: seen)
                 else some (.pass c, r :: seen)
               | none => some (.pass .undef, r :: seen)) with
            | none => none
            | some (cs, seen2) =>
              match serializeListF (fun v s => serializeF fuel' h v s)
                  ["message", "name", "stack", "cause"] o.fields seen2 with
              | none => none
              | some (fs, seen3) => some (.errObj e.message e.name e.stack cs fs, seen3)
      | none => some (.pass (.vRef r), seen)
    | none => some (.pass (.vRef r), seen)
  | _, _, v, seen => some (.pass v, seen)

/-- Decides whether heap slot `r` holds an `Error` instance. -/
def isErrIdx (h : SerHeap) (r : Nat) : Bool :=
  match h.get? r with
  | some o => o.err.isSome
  | none => false

/-- Number of Error objects of the heap not yet in the visited set: the
termination measure of `serialize`. -/
def unseenErrCount (h : SerHeap) (seen : List Nat) : Nat :=
  ((List.range h.length).filter (fun r => isErrIdx h r && !seen.contains r)).length

/-- Embeds a top-level call `serialize(value)`: the `ErrorFormat` transform
creates a fresh empty `WeakSet` per invocation (`ErrorFormat.ts` lines 41
and 60), so the visited set starts empty.  The fuel is the number of Error
objects in the heap, which the totality theorem proves sufficient. -/
def serializeTop (h : SerHeap) (v : JSVal) : Option SVal :=
  (serializeF (unseenErrCount h []) h v []).map (fun p => p.1)

/-! ## Cause chains -/

/-- Specification of one Error in a cause chain. -/
structure ErrSpec where
  message : String
  name : String
  stack : String
deriving DecidableEq, Inhabited

/-- Heap object number `j` of a cause chain: an Error whose cause is the
next chain member, and no cause at the end; no extra enumerable fields. -/
def chainNode (n : Nat) (j : Nat) (e : ErrSpec) : JSObj :=
  { err := some { message := e.message, name := e.name, stack := e.stack,
                  cause := if j + 1 < n then some (.vRef (j + 1)) else none },
    fields := [] }

/-- Heap holding exactly the errors of a cause chain `specs`, object `j`
caused by object `j+1`. -/
def chainHeap (specs : List ErrSpec) : SerHeap :=
  (List.range specs.length).map (fun j => chainNode specs.length j (specs.getD j default))

/-- Expected serializer output for a cause chain. -/
def chainOut : List ErrSpec → SVal
  | [] => .pass .undef
  | e :: rest =>
    .errObj e.message e.name e.stack
      (match rest with
       | [] => .pass .undef
       | e1 :: rest1 => chainOut (e1 :: rest1)) []

/-- Tests whether a serialized value is a serialized-Error object. -/
def isErrNode : SVal → Bool
  | .errObj _ _ _ _ _ => true
  | _ => false

/-- Number of nested `cause` mappings below a serialized value. -/
def causeDepth : SVal → Nat
  | .errObj _ _ _ c _ => if isErrNode c then causeDepth c + 1 else 0
  | _ => 0

/-- Standard fields of the `i`-th node along the output `cause` chain. -/
def nodeAt : SVal → Nat → Option ErrSpec
  | .errObj m n s _ _, 0 => some { message := m, name := n, stack := s }
  | .errObj _ _ _ c _, i + 1 => nodeAt c i
  | _, _ => none

mutual

/-- Checks that a serialized value contains no reference back into the
input heap (the spec's "no live references back into the input"). -/
def refFree : SVal → Bool
  | .pass (.vRef _) => false
  | .pass _ => true
  | .sentinel => true
  | .errObj _ _ _ c fs => refFree c && refFreeList fs

/-- Checks `refFree` on every field value of a serialized object. -/
def refFreeList : List (String × SVal) → Bool
  | [] => true
  | p :: rest => refFree p.2 && refFreeList rest

end

/-- Example heap for the pass-by-reference behaviour: object 0 is an Error
whose extra enumerable field `data` references the plain object 1. -/
def exHeapRef : SerHeap :=
  [ { err := some { message := "boom", name := "Error", stack := "st0", cause := none },
      fields := [("data", .vRef 1)] },
    { err := none, fields := [("x", .vStr "y")] } ]

/-- Example heap with a cyclic cause chain of length two. -/
def exHeapCyc : SerHeap :=
  [ { err := some { message := "outer", name := "Error", stack := "s0", cause := some (.vRef 1) },
      fields := [] },
    { err := some { message := "inner", name := "Error", stack := "s1", cause := some (.vRef 0) },
      fields := [] } ]

/-! ## Mapped diagnostic context (MDC) -/

/-- A context store object: a JavaScript object mapping string keys to
string values, entries in insertion order. -/
abbrev Ctx := List (String × String)

/-- Embeds reading property `k` of a JavaScript object: the entry list has
at most one entry per key, and the first match is returned. -/
def objGet : Ctx → String → Option String
  | [], _ => none
  | p :: rest, k => if p.1 == k then some p.2 else objGet rest k

/-- Decides whether a JavaScript object has property `k`. -/
def objContains : Ctx → String → Bool
  | [], _ => false
  | p :: rest, k => p.1 == k || objContains rest k

/-- Embeds the property write `o[k] = v`: updates an existing entry in
place (JavaScript keeps the original insertion position), otherwise
appends a new entry. -/
def objSet (o : Ctx) (k : String) (v : String) : Ctx :=
  if objContains o k then o.map (fun p => if p.1 == k then (k, v) else p)
  else o ++ [(k, v)]

/-- Embeds `Object.entries(ctx).forEach(([k, v]) => o[k] = v)`. -/
def mergeObj (o : Ctx) (ctx : Ctx) : Ctx :=
  ctx.foldl (fun acc p => objSet acc p.1 p.2) o

/-- Exception value standing for a thrown JavaScript error. -/
structure JsErr where
  msg : String
deriving DecidableEq

/-- State of the `MDC` class: a heap of context-store objects (references
are indices, allocation appends) plus the store currently installed in the
`AsyncLocalStorage` (`none` when no context is active).  References are
essential: `AsyncLocalStorage.run` restores the previous store by
reference, while `put`/`putAll` mutate the current store object in place,
so aliasing between the caller's store and a map passed to
`runWithContext` is observable, exactly as in the source. -/
structure MDCState where
  heap : List Ctx
  current : Option Nat
deriving DecidableEq

/-- Embeds `MDC.get` (`LoggerFactory.ts` lines 213-216): reads the current
store and returns `store ? store[key] : undefined`.  The guard makes the
function total; a dangling current reference (impossible for states
produced by the API) also reads as absent. -/
def MDC.get (key : String) (s : MDCState) : Option String :=
  match s.current with
  | none => none
  | some r =>
    match s.heap.get? r with
    | some store => objGet store key
    | none => none

/-- Embeds `MDC.put` (lines 224-231): fetches the current store, creating
and entering a fresh empty object when none is active, then performs the
in-place write `store[key] = value` and `enterWith(store)`.  The `Except`
result records that the only conceivable throw — indexing an invalid store
— is unreachable: the code guards the absent-store case with a fresh
object, and the error branch below fires only on a dangling reference,
which no API-produced state contains. -/
def MDC.put (key value : String) (s : MDCState) : Except JsErr MDCState :=
  match s.current with
  | none =>
    .ok { heap := s.heap ++ [objSet [] key value], current := some s.heap.length }
  | some r =>
    match s.heap.get? r with
    | some store => .ok { s with heap := s.heap.set r (objSet store key value) }
    | none => .error { msg := "TypeError: invalid store reference" }

/-- Embeds `MDC.putAll` (lines 238-247).  `mref` is the reference of the
argument object.  The source merges the argument's entries into the current
store (creating a fresh empty object when none is active) — and then calls
`enterWith(context)`, installing the argument object itself as the new
current store, so the merged store is abandoned. -/
def MDC.putAll (mref : Nat) (s : MDCState) : Except JsErr MDCState :=
  match s.heap.get? mref with
  | none => .error { msg := "TypeError: invalid context reference" }
  | some ctx =>
    match s.current with
    | none =>
      .ok { heap := s.heap ++ [mergeObj [] ctx], current := some mref }
    | some r =>
      match s.heap.get? r with
      | some store =>
        .ok { heap := s.heap.set r (mergeObj store ctx), current := some mref }
      | none => .error { msg := "TypeError: invalid store reference" }

/-- Embeds `MDC.clear` (lines 252-254): `enterWith` of a freshly allocated
empty object. -/
def MDC.clear (s : MDCState) : MDCState :=
  { heap := s.heap ++ [[]], current := some s.heap.length }

/-- Bodies passed to `runWithContext`, deep-embedded as sequences of MDC
operations.  `putAllNew m` and every command allocate their argument
objects fresh, as JavaScript object literals do; `throwE` models the body
raising an exception at that point. -/
inductive Cmd where
  | put (k v : String)
  | putAllNew (m : Ctx)
  | clear
  | throwE
deriving DecidableEq

/-- Executes one body command.  The `Bool` is `true` for normal completion
and `false` once an exception propagates. -/
def execCmd (c : Cmd) (s : MDCState) : MDCState × Bool :=
  match c with
  | .put k v =>
    match MDC.put k v s with
    | .ok s1 => (s1, true)
    | .error _ => (s, false)
  | .putAllNew m =>
    let s1 : MDCState := { heap := s.heap ++ [m], current := s.current }
    match MDC.putAll s.heap.length s1 with
    | .ok s2 => (s2, true)
    | .error _ => (s1, false)
  | .clear => (MDC.clear s, true)
  | .throwE => (s, false)

/-- Executes a body, stopping at the first exception. -/
def execList : List Cmd → MDCState → MDCState × Bool
  | [], s => (s, true)
  | c :: cs, s =>
    match execCmd c s with
    | (s1, true) => execList cs s1
    | (s1, false) => (s1, false)

/-- Embeds `MDC.runWithContext` (lines 263-265), i.e.
`AsyncLocalStorage.run(context, callback)`: the store becomes the argument
object (by reference) for the body's execution, and afterwards the
previously installed store — also by reference — is restored, whether the
body completed or threw. -/
def MDC.runWithContext (mref : Nat) (body : List Cmd) (s : MDCState) : MDCState × Bool :=
  let res := execList body { s with current := some mref }
  ({ res.1 with current := s.current }, res.2)

/-- Well-formedness of an MDC state: the installed store reference is
valid.  Every state reachable through the API satisfies this. -/
def MDCWF (s : MDCState) : Prop :=
  ∀ r, s.current = some r → r < s.heap.length

/-- Invariant used for the scoping proof: the heap extends beyond `n0` and
the installed store lives in the fresh region at or above `n0`. -/
def MDCInv (n0 : Nat) (s : MDCState) : Prop :=
  n0 ≤ s.heap.length ∧ ∀ r, s.current = some r → n0 ≤ r

/-! ## Singleton logger factory -/

/-- Winston formats, as opaque pipeline steps: the four steps of the
factory's default pipeline, `combine`, and opaque caller-supplied steps. -/
inductive Fmt where
  | timestamp
  | errors
  | errorFormat
  | json
  | combine (fs : List Fmt)
  | custom (id : Nat)

/-- Winston transports: the default console transport and opaque
caller-supplied ones. -/
inductive Transport where
  | console
  | custom (id : Nat)

/-- Options accepted by `LoggerFactory.createLogger`. -/
structure LoggerOptions where
  level : Option String
  format : Option Fmt
  defaultMeta : Option (List (String × String))
  transports : Option (List Transport)

/-- A constructed winston logger: the configuration it was built with plus
the metadata overlay added by `child`. -/
structure WLogger where
  level : String
  fmt : Fmt
  defaultMeta : Option (List (String × String))
  transports : List Transport
  childMeta : List (String × String)

/-- The factory's default pipeline (`LoggerFactory.ts` lines 76-81):
timestamp, winston error format, `ErrorFormat()`, JSON. -/
def defaultFormat : Fmt := .combine [.timestamp, .errors, .errorFormat, .json]

/-- Configuration passed to `winston.createLogger`. -/
structure WinstonConfig where
  level : String
  fmt : Fmt
  defaultMeta : Option (List (String × String))
  transports : List Transport

/-- Embeds the option resolution of `createLogger` (lines 83-92): level
defaults to `info`, a caller-supplied format is combined in front of the
default pipeline, transports default to a single console transport. -/
def resolveConfig (options : Option LoggerOptions) : WinstonConfig :=
  { level := (options.bind (fun o => o.level)).getD "info"
    fmt :=
      match options.bind (fun o => o.format) with
      | some f => .combine [f, defaultFormat]
      | none => defaultFormat
    defaultMeta := options.bind (fun o => o.defaultMeta)
    transports := (options.bind (fun o => o.transports)).getD [.console] }

/-- The `BaseException` thrown by the factory on construction failure:
message, wrapped cause, numeric code. -/
structure BaseExc where
  message : String
  cause : Option JsErr
  code : Option Nat

/-- Embeds `LoggerFactory.createLogger` (lines 74-98) as a transformer of
the singleton state (`none` = `Uninitialized`).  `wcreate` stands for the
external `winston.createLogger` together with the format construction of
the try block — the part that may throw.  On success the fully built logger
is assigned to the singleton and returned; on failure the singleton is left
untouched and a `BaseException` with message `Error creating logger`, the
original error as `cause` and code 500 is thrown. -/
def LoggerFactory.createLogger (wcreate : WinstonConfig → Except JsErr WLogger)
    (options : Option LoggerOptions) (st : Option WLogger) :
    Option WLogger × Except BaseExc WLogger :=
  match wcreate (resolveConfig options) with
  | .ok lg => (some lg, .ok lg)
  | .error e =>
    (st, .error { message := "Error creating logger", cause := some e, code := some 500 })

/-- Embeds `winston.Logger.child(overrides)`: a view of the same logger
with the overrides merged into the metadata overlay. -/
def WLogger.child (lg : WLogger) (meta : List (String × String)) : WLogger :=
  { lg with childMeta := mergeObj lg.childMeta meta }

/-- Metadata attached to a record emitted through a logger: the record's
own metadata with the logger's overlay merged in. -/
def WLogger.emit (lg : WLogger) (record : List (String × String)) : List (String × String) :=
  mergeObj record lg.childMeta

/-- Embeds `LoggerFactory.getLogger` (lines 123-132): uses the installed
singleton base logger, lazily constructing one with default options when
none exists yet, and returns `baseLogger.child` with the label as metadata. -/
def LoggerFactory.getLogger (wcreate : WinstonConfig → Except JsErr WLogger)
    (label : String) (st : Option WLogger) : Option WLogger × Except BaseExc WLogger :=
  match st with
  | some lg => (st, .ok (lg.child [("label", label)]))
  | none =>
    match LoggerFactory.createLogger wcreate none none with
    | (st1, .ok lg) => (st1, .ok (lg.child [("label", label)]))
    | (st1, .error e) => (st1, .error e)

/-! ## Named-logger registry (`src/logger/factory/LoggerFactory.ts`) -/

/-- The `LoggerStorage` map, modelled extensionally. -/
abbrev RegMap := String → Option WLogger

/-- The initial empty `Map`. -/
def emptyReg : RegMap := fun _ => none

/-- Embeds `LoggerFactory.getLogger` of the registry file (lines 17-19):
`LoggerStorage.get(loggerName)`. -/
def RegistryFactory.getLogger (loggerName : String) (reg : RegMap) : Option WLogger :=
  reg loggerName

/-- Embeds `LoggerFactory.setLogger` (lines 27-29):
`LoggerStorage.set(loggerName, logger)`. -/
def RegistryFactory.setLogger (loggerName : String) (lg : WLogger) (reg : RegMap) : RegMap :=
  fun m => if m = loggerName then some lg else reg m

/-- A sequence of `setLogger` calls applied to the initially empty map. -/
def applySets (ops : List (String × WLogger)) : RegMap :=
  ops.foldl (fun reg p => RegistryFactory.setLogger p.1 p.2 reg) emptyReg

/-- A winston logger as constructed from a resolved configuration: the
model of a successful `winston.createLogger` call. -/
def defaultWCreate : WinstonConfig → Except JsErr WLogger :=
  fun cfg => .ok { level := cfg.level, fmt := cfg.fmt, defaultMeta := cfg.defaultMeta,
                   transports := cfg.transports, childMeta := [] }

/-- The logger built by `defaultWCreate` from the default configuration. -/
def exLogger : WLogger :=
  { level := "info", fmt := defaultFormat, defaultMeta := none,
    transports := [.console], childMeta := [] }

/-! ## Helper lemmas -/


theorem get?_lt_length {α : Type} {l : List α} {n : Nat} {a : α}
    (hg : l.get? n = some a) : n < l.length := by
  by_contra hn
  rw [List.get?_eq_none.mpr (Nat.le_of_not_lt hn)] at hg
  cases hg

theorem mem_of_contains {l : List Nat} {a : Nat} (hc : l.contains a = true) : a ∈ l :=
  List.mem_of_elem_eq_true hc

theorem contains_of_mem {l : List Nat} {a : Nat} (hm : a ∈ l) : l.contains a = true :=
  List.elem_eq_true_of_mem hm

theorem contains_eq_false_of_not_mem {l : List Nat} {a : Nat} (hm : a ∉ l) :
    l.contains a = false := by
  cases hc : l.contains a with
  | false => rfl
  | true => exact absurd (mem_of_contains hc) hm

theorem filter_length_le {α : Type} (p q : α → Bool) (l : List α)
    (himp : ∀ a, p a = true → q a = true) :
    (l.filter p).length ≤ (l.filter q).length :=
  (List.monotone_filter_right l himp).length_le

theorem filter_length_lt {α : Type} (p q : α → Bool) (l : List α)
    (himp : ∀ a, p a = true → q a = true) (x : α) (hx : x ∈ l)
    (hpx : p x = false) (hqx : q x = true) :
    (l.filter p).length < (l.filter q).length := by
  induction l with
  | nil => cases hx
  | cons a rest ih =>
    rcases List.mem_cons.mp hx with rfl | hxr
    · rw [List.filter_cons_of_neg (by simp [hpx]), List.filter_cons_of_pos (by simp [hqx])]
      exact Nat.lt_succ_of_le (filter_length_le p q rest himp)
    · by_cases hpa : p a = true
      · rw [List.filter_cons_of_pos (by simp [hpa]), List.filter_cons_of_pos (by simp [himp a hpa])]
        exact Nat.succ_lt_succ (ih hxr)
      · rw [List.filter_cons_of_neg (by simp [hpa])]
        by_cases hqa : q a = true
        · rw [List.filter_cons_of_pos (by simp [hqa])]
          exact Nat.lt_succ_of_lt (ih hxr)
        · rw [List.filter_cons_of_neg (by simp [hqa])]
          exact ih hxr

theorem bool_eq_false {b : Bool} (h : ¬ b = true) : b = false := by
  cases b with
  | false => rfl
  | true => exact absurd rfl h

theorem bool_not_true {b : Bool} (h : b = false) : ¬ b = true := by
  rw [h]
  exact Bool.false_ne_true

theorem objGet_map_set_other (o : Ctx) (k k2 v : String) (hne : (k2 == k) = false) :
    objGet (o.map (fun p => if p.1 == k2 then (k2, v) else p)) k = objGet o k := by
  induction o with
  | nil => rfl
  | cons p rest ih =>
    rw [List.map_cons]
    by_cases hpk : (p.1 == k2) = true
    · rw [if_pos hpk, objGet, objGet, if_neg (bool_not_true hne)]
      have hp1 : p.1 = k2 := eq_of_beq hpk
      rw [if_neg (bool_not_true (by rw [hp1]; exact hne))]
      exact ih
    · rw [if_neg hpk, objGet, objGet]
      by_cases hq : (p.1 == k) = true
      · rw [if_pos hq, if_pos hq]
      · rw [if_neg hq, if_neg hq]
        exact ih

theorem objGet_append_other (o : Ctx) (k k2 v : String) (hne : (k2 == k) = false) :
    objGet (o ++ [(k2, v)]) k = objGet o k := by
  induction o with
  | nil =>
    show objGet [(k2, v)] k = none
    rw [objGet, if_neg (bool_not_true hne)]
    rfl
  | cons p rest ih =>
    rw [List.cons_append, objGet, objGet]
    by_cases hq : (p.1 == k) = true
    · rw [if_pos hq, if_pos hq]
    · rw [if_neg hq, if_neg hq]
      exact ih

theorem objGet_objSet_other (o : Ctx) (k k2 v : String) (hne : (k2 == k) = false) :
    objGet (objSet o k2 v) k = objGet o k := by
  rw [objSet]
  by_cases hc : objContains o k2 = true
  · rw [if_pos hc]
    exact objGet_map_set_other o k k2 v hne
  · rw [if_neg hc]
    exact objGet_append_other o k k2 v hne

theorem objGet_map_set_self (o : Ctx) (k v : String) (hc : objContains o k = true) :
    objGet (o.map (fun p => if p.1 == k then (k, v) else p)) k = some v := by
  induction o with
  | nil => cases hc
  | cons p rest ih =>
    rw [List.map_cons]
    by_cases hpk : (p.1 == k) = true
    · rw [if_pos hpk, objGet, if_pos (beq_self_eq_true k)]
    · rw [if_neg hpk, objGet, if_neg hpk]
      apply ih
      rw [objContains, Bool.or_eq_true] at hc
      rcases hc with hc | hc
      · exact absurd hc hpk
      · exact hc

theorem objGet_objSet_self (o : Ctx) (k v : String) : objGet (objSet o k v) k = some v := by
  rw [objSet]
  by_cases hc : objContains o k = true
  · rw [if_pos hc]
    exact objGet_map_set_self o k v hc
  · rw [if_neg hc]
    induction o with
    | nil =>
      rw [List.nil_append, objGet, if_pos (beq_self_eq_true k)]
    | cons p rest ih =>
      rw [objContains, Bool.or_eq_true] at hc
      push_neg at hc
      have hpk : (p.1 == k) = false := bool_eq_false hc.1
      rw [List.cons_append, objGet, if_neg (bool_not_true hpk)]
      exact ih hc.2

theorem objContains_false_forall (o : Ctx) (k : String) (h : objContains o k = false) :
    ∀ p ∈ o, (p.1 == k) = false := by
  induction o with
  | nil => intro p hp; cases hp
  | cons q rest ih =>
    rw [objContains] at h
    rw [Bool.or_eq_false_iff] at h
    intro p hp
    rcases List.mem_cons.mp hp with rfl | hpr
    · exact h.1
    · exact ih h.2 p hpr

theorem objSet_key_vals (o : Ctx) (k v : String) :
    ∀ p ∈ objSet o k v, (p.1 == k) = true → p.2 = v := by
  rw [objSet]
  by_cases hc : objContains o k = true
  · rw [if_pos hc]
    intro p hp hpk
    obtain ⟨q, hq, hqe⟩ := List.mem_map.mp hp
    by_cases hqk : (q.1 == k) = true
    · rw [if_pos hqk] at hqe
      rw [← hqe]
    · rw [if_neg hqk] at hqe
      rw [← hqe] at hpk
      exact absurd hpk hqk
  · rw [if_neg hc]
    intro p hp hpk
    rcases List.mem_append.mp hp with hpo | hps
    · have := objContains_false_forall o k (bool_eq_false hc) p hpo
      rw [this] at hpk
      cases hpk
    · rcases List.mem_singleton.mp hps with rfl
      rfl

theorem objSet_contains (o : Ctx) (k v : String) :
    objContains (objSet o k v) k = true := by
  rw [objSet]
  by_cases hc : objContains o k = true
  · rw [if_pos hc]
    induction o with
    | nil => cases hc
    | cons p rest ih =>
      rw [List.map_cons]
      by_cases hpk : (p.1 == k) = true
      · rw [if_pos hpk, objContains, beq_self_eq_true, Bool.true_or]
      · rw [if_neg hpk, objContains]
        rw [objContains, Bool.or_eq_true] at hc
        rcases hc with hc | hc
        · exact absurd hc hpk
        · rw [ih hc, Bool.or_true]
  · rw [if_neg hc]
    induction o with
    | nil =>
      rw [List.nil_append, objContains, beq_self_eq_true, Bool.true_or]
    | cons p rest ih =>
      have hc2 : (p.1 == k || objContains rest k) = false := by
        rw [objContains] at hc
        exact bool_eq_false hc
      rw [Bool.or_eq_false_iff] at hc2
      rw [List.cons_append, objContains, ih (bool_not_true hc2.2), Bool.or_true]

theorem objGet_mergeObj_no_key (m : Ctx) :
    ∀ (r : Ctx) (k : String), objContains m k = false →
      objGet (mergeObj r m) k = objGet r k := by
  induction m with
  | nil => intro r k _; rfl
  | cons q rest ih =>
    intro r k h
    rw [objContains, Bool.or_eq_false_iff] at h
    rw [mergeObj, List.foldl_cons]
    have := ih (objSet r q.1 q.2) k h.2
    rw [mergeObj] at this
    rw [this]
    exact objGet_objSet_other r k q.1 q.2 h.1

theorem objGet_mergeObj_of_key (m : Ctx) :
    ∀ (r : Ctx) (k v : String),
      (∀ p ∈ m, (p.1 == k) = true → p.2 = v) → objContains m k = true →
      objGet (mergeObj r m) k = some v := by
  induction m with
  | nil => intro r k v _ h2; cases h2
  | cons p rest ih =>
    intro r k v h1 h2
    rw [mergeObj, List.foldl_cons]
    by_cases hc : objContains rest k = true
    · have := ih (objSet r p.1 p.2) k v (fun q hq hqk => h1 q (List.mem_cons_of_mem p hq) hqk) hc
      rw [mergeObj] at this
      exact this
    · rw [objContains, Bool.or_eq_true] at h2
      have hpk : (p.1 == k) = true := by
        rcases h2 with h2 | h2
        · exact h2
        · exact absurd h2 hc
      have hp1 : p.1 = k := eq_of_beq hpk
      have hp2 : p.2 = v := h1 p (List.mem_cons_self p rest) hpk
      have hrest := objGet_mergeObj_no_key rest (objSet r p.1 p.2) k (bool_eq_false hc)
      rw [mergeObj] at hrest
      rw [hrest, hp1, hp2]
      exact objGet_objSet_self r k v


/-! ## Serializer lemmas: visited-set growth, totality, chains -/


theorem serializeListF_suffix (f : JSVal → List Nat → Option (SVal × List Nat))
    (hf : ∀ v seen out, f v seen = some out → seen <:+ out.2) :
    ∀ (fields : List (String × JSVal)) (taken : List String) (seen : List Nat) out,
      serializeListF f taken fields seen = some out → seen <:+ out.2 := by
  intro fields
  induction fields with
  | nil =>
    intro taken seen out heq
    simp only [serializeListF] at heq
    cases heq
    exact List.suffix_rfl
  | cons p rest ih =>
    intro taken seen out heq
    simp only [serializeListF] at heq
    split at heq
    · exact ih _ _ _ heq
    · split at heq
      · cases heq
      · rename_i sv sn1 hfv
        split at heq
        · cases heq
        · rename_i fs sn2 hrest
          cases heq
          exact List.IsSuffix.trans (hf p.2 seen (sv, sn1) hfv) (ih (p.1 :: taken) sn1 (fs, sn2) hrest)

theorem serializeF_suffix :
    ∀ (fuel : Nat) (h : SerHeap) (v : JSVal) (seen : List Nat) out,
      serializeF fuel h v seen = some out → seen <:+ out.2 := by
  intro fuel h v seen
  induction fuel, h, v, seen using serializeF.induct with
  | case1 fuel h r seen o hg e he hr =>
    intro out heq
    simp only [serializeF, hg, he, if_pos hr] at heq
    cases heq
    exact List.suffix_rfl
  | case2 h r seen o hg e he hr =>
    intro out heq
    simp only [serializeF, hg, he, if_neg hr] at heq
    cases heq
  | case3 h r seen o hg e he hr fuel' hcnone ihc =>
    intro out heq
    simp only [serializeF, hg, he, if_neg hr] at heq
    rw [hcnone] at heq
    cases heq
  | case4 h r seen o hg e he hr fuel' cs sn1 hcause hlist ihc ihall =>
    intro out heq
    simp only [serializeF, hg, he, if_neg hr] at heq
    rw [hcause] at heq
    split at heq
    · rename_i hlz
      cases hlz
    · rename_i fs2 sn2 hlz
      cases hlz
      rw [hlist] at heq
      cases heq
  | case5 h r seen o hg e he hr fuel' cs sn1 hcause fs sn2 hlist ihc ihall =>
    intro out heq
    simp only [serializeF, hg, he, if_neg hr] at heq
    rw [hcause] at heq
    split at heq
    · rename_i hlz
      cases hlz
    · rename_i fs2 sn3 hlz
      cases hlz
      rw [hlist] at heq
      cases heq
      have h1 : (r :: seen) <:+ sn1 := by
        revert hcause
        split
        · rename_i c hc
          by_cases hce : isErrRef h c = true
          · rw [if_pos hce]
            intro hcause
            exact ihc c (cs, sn1) hcause
          · rw [if_neg hce]
            intro hcause
            cases hcause
            exact List.suffix_rfl
        · intro hcause
          cases hcause
          exact List.suffix_rfl
      have h2 : sn1 <:+ sn2 :=
        serializeListF_suffix _ (fun v s q hq => ihall v s q hq) o.fields _ sn1 (fs, sn2) hlist
      exact ((List.suffix_cons r seen).trans h1).trans h2
  | case6 fuel h r seen o hg he =>
    intro out heq
    simp only [serializeF, hg, he] at heq
    cases heq
    exact List.suffix_rfl
  | case7 fuel h r seen hg =>
    intro out heq
    simp only [serializeF, hg] at heq
    cases heq
    exact List.suffix_rfl
  | case8 fuel h v seen hnr =>
    intro out heq
    cases fuel <;> cases v <;> first
      | exact absurd rfl (fun hx => hnr _ hx)
      | (cases heq; exact List.suffix_rfl)

theorem unseenErrCount_le_of_subset (h : SerHeap) (s1 s2 : List Nat)
    (hs : ∀ x, x ∈ s1 → x ∈ s2) :
    unseenErrCount h s2 ≤ unseenErrCount h s1 := by
  apply filter_length_le
  intro r hr
  rw [Bool.and_eq_true] at hr ⊢
  refine ⟨hr.1, ?_⟩
  rw [Bool.not_eq_true'] at hr ⊢
  cases hc : s1.contains r with
  | false => rfl
  | true =>
    have := contains_of_mem (hs r (mem_of_contains hc))
    rw [this] at hr
    cases hr.2

theorem unseenErrCount_cons_lt (h : SerHeap) (seen : List Nat) (r : Nat)
    (hr : isErrIdx h r = true) (hnot : r ∉ seen) (hlt : r < h.length) :
    unseenErrCount h (r :: seen) < unseenErrCount h seen := by
  refine filter_length_lt _ _ _ ?himp r (List.mem_range.mpr hlt) ?hpx ?hqx
  case himp =>
    intro a ha
    rw [Bool.and_eq_true] at ha ⊢
    refine ⟨ha.1, ?_⟩
    rw [Bool.not_eq_true'] at ha ⊢
    cases hc : seen.contains a with
    | false => rfl
    | true =>
      have : (r :: seen).contains a = true :=
        contains_of_mem (List.mem_cons_of_mem r (mem_of_contains hc))
      rw [this] at ha
      cases ha.2
  case hpx =>
    have : (r :: seen).contains r = true := contains_of_mem (List.mem_cons_self r seen)
    rw [this]
    simp
  case hqx =>
    rw [Bool.and_eq_true, Bool.not_eq_true']
    exact ⟨hr, contains_eq_false_of_not_mem hnot⟩

theorem serializeListF_isSome (h : SerHeap) (fuel' : Nat)
    (htot : ∀ v s, unseenErrCount h s ≤ fuel' → (serializeF fuel' h v s).isSome = true) :
    ∀ (fields : List (String × JSVal)) (taken : List String) (seen : List Nat),
      unseenErrCount h seen ≤ fuel' →
      (serializeListF (fun v s => serializeF fuel' h v s) taken fields seen).isSome = true := by
  intro fields
  induction fields with
  | nil =>
    intro taken seen hb
    simp [serializeListF]
  | cons p rest ih =>
    intro taken seen hb
    simp only [serializeListF]
    split
    · exact ih taken seen hb
    · cases hfe : serializeF fuel' h p.2 seen with
      | none =>
        have := htot p.2 seen hb
        rw [hfe] at this
        cases this
      | some q =>
        have hsub : seen <:+ q.2 := serializeF_suffix fuel' h p.2 seen q hfe
        have hb2 : unseenErrCount h q.2 ≤ fuel' :=
          Nat.le_trans (unseenErrCount_le_of_subset h seen q.2 (fun x hx => hsub.subset hx)) hb
        cases hre : serializeListF (fun v s => serializeF fuel' h v s) (p.1 :: taken) rest q.2 with
        | none =>
          have := ih (p.1 :: taken) q.2 hb2
          rw [hre] at this
          cases this
        | some q2 => simp [hfe, hre]

theorem serializeF_isSome :
    ∀ (fuel : Nat) (h : SerHeap) (v : JSVal) (seen : List Nat),
      unseenErrCount h seen ≤ fuel → (serializeF fuel h v seen).isSome = true := by
  intro fuel h v seen
  induction fuel, h, v, seen using serializeF.induct with
  | case1 fuel h r seen o hg e he hr =>
    intro hb
    simp only [serializeF, hg, he, if_pos hr]
    rfl
  | case2 h r seen o hg e he hr =>
    intro hb
    exfalso
    have hrl : r < h.length := get?_lt_length hg
    have herr : isErrIdx h r = true := by
      rw [isErrIdx, hg]
      show o.err.isSome = true
      rw [he]
      rfl
    have := unseenErrCount_cons_lt h seen r herr hr hrl
    omega
  | case3 h r seen o hg e he hr fuel' hcnone ihc =>
    intro hb
    exfalso
    have hrl : r < h.length := get?_lt_length hg
    have herr : isErrIdx h r = true := by
      rw [isErrIdx, hg]
      show o.err.isSome = true
      rw [he]
      rfl
    have hlt := unseenErrCount_cons_lt h seen r herr hr hrl
    have hb1 : unseenErrCount h (r :: seen) ≤ fuel' := by omega
    revert hcnone
    split
    · rename_i c hc
      by_cases hce : isErrRef h c = true
      · rw [if_pos hce]
        intro hcnone
        have := ihc c hb1
        rw [hcnone] at this
        cases this
      · rw [if_neg hce]
        intro hcnone
        cases hcnone
    · intro hcnone
      cases hcnone
  | case4 h r seen o hg e he hr fuel' cs sn1 hcause hlist ihc ihall =>
    intro hb
    exfalso
    have hrl : r < h.length := get?_lt_length hg
    have herr : isErrIdx h r = true := by
      rw [isErrIdx, hg]
      show o.err.isSome = true
      rw [he]
      rfl
    have hlt := unseenErrCount_cons_lt h seen r herr hr hrl
    have hb1 : unseenErrCount h (r :: seen) ≤ fuel' := by omega
    have hsn1 : unseenErrCount h sn1 ≤ fuel' := by
      revert hcause
      split
      · rename_i c hc
        by_cases hce : isErrRef h c = true
        · rw [if_pos hce]
          intro hcause
          have hsub : (r :: seen) <:+ sn1 := serializeF_suffix fuel' h c (r :: seen) (cs, sn1) hcause
          exact Nat.le_trans
            (unseenErrCount_le_of_subset h (r :: seen) sn1 (fun x hx => hsub.subset hx)) hb1
        · rw [if_neg hce]
          intro hcause
          cases hcause
          exact hb1
      · intro hcause
        cases hcause
        exact hb1
    have := serializeListF_isSome h fuel' (fun v s hs => ihall v s hs) o.fields
      ["message", "name", "stack", "cause"] sn1 hsn1
    rw [hlist] at this
    cases this
  | case5 h r seen o hg e he hr fuel' cs sn1 hcause fs sn2 hlist ihc ihall =>
    intro hb
    simp only [serializeF, hg, he, if_neg hr]
    rw [hcause]
    simp only []
    rw [hlist]
    rfl
  | case6 fuel h r seen o hg he =>
    intro hb
    simp only [serializeF, hg, he]
    rfl
  | case7 fuel h r seen hg =>
    intro hb
    simp only [serializeF, hg]
    rfl
  | case8 fuel h v seen hnr =>
    intro hb
    cases fuel <;> cases v <;> first
      | exact absurd rfl (fun hx => hnr _ hx)
      | rfl

theorem chainHeap_length (specs : List ErrSpec) : (chainHeap specs).length = specs.length := by
  rw [chainHeap, List.length_map, List.length_range]

theorem chainHeap_get (specs : List ErrSpec) (j : Nat) (hj : j < specs.length) :
    (chainHeap specs).get? j = some (chainNode specs.length j (specs.getD j default)) := by
  rw [chainHeap, List.get?_map, List.get?_range hj]
  rfl

theorem chainHeap_errCount (specs : List ErrSpec) :
    unseenErrCount (chainHeap specs) [] = specs.length := by
  rw [unseenErrCount, chainHeap_length]
  have hall : ∀ a ∈ List.range specs.length,
      (isErrIdx (chainHeap specs) a && !List.contains [] a) = true := by
    intro a ha
    rw [List.mem_range] at ha
    rw [Bool.and_eq_true]
    constructor
    · rw [isErrIdx, chainHeap_get specs a ha]
      rfl
    · rfl
  rw [List.filter_eq_self.mpr hall, List.length_range]

theorem chainOut_drop (specs : List ErrSpec) (j : Nat) (hj : j < specs.length) :
    chainOut (specs.drop j) =
      .errObj (specs.getD j default).message (specs.getD j default).name
        (specs.getD j default).stack
        (if j + 1 < specs.length then chainOut (specs.drop (j + 1)) else .pass .undef) [] := by
  rw [List.drop_eq_getElem_cons hj, List.getD_eq_getElem specs default hj]
  by_cases hj1 : j + 1 < specs.length
  · rw [if_pos hj1, List.drop_eq_getElem_cons hj1]
    rfl
  · rw [if_neg hj1, List.drop_eq_nil_of_le (by omega)]
    rfl

theorem serialize_chain (specs : List ErrSpec) :
    ∀ (fuel : Nat) (j : Nat) (seen : List Nat),
      j < specs.length →
      (∀ x ∈ seen, x < j ∨ specs.length ≤ x) →
      specs.length - j ≤ fuel →
      ∃ seenF, serializeF fuel (chainHeap specs) (.vRef j) seen
        = some (chainOut (specs.drop j), seenF) := by
  intro fuel
  induction fuel with
  | zero =>
    intro j seen hj hdisj hb
    omega
  | succ fuel' ih =>
    intro j seen hj hdisj hb
    have hget := chainHeap_get specs j hj
    have hjnot : j ∉ seen := by
      intro hmem
      rcases hdisj j hmem with h1 | h2 <;> omega
    rw [chainOut_drop specs j hj]
    by_cases hj1 : j + 1 < specs.length
    · obtain ⟨sF, hrec⟩ := ih (j + 1) (j :: seen) hj1
        (by
          intro x hx
          rcases List.mem_cons.mp hx with rfl | hxs
          · left; omega
          · rcases hdisj x hxs with h1 | h2
            · left; omega
            · right; exact h2)
        (by omega)
      refine ⟨sF, ?_⟩
      have hisErr : isErrRef (chainHeap specs) (.vRef (j + 1)) = true := by
        rw [isErrRef, chainHeap_get specs (j + 1) hj1]
        rfl
      simp only [serializeF, hget, chainNode, if_pos hj1, if_neg hjnot, hisErr,
        eq_self_iff_true, if_true, hrec, serializeListF]
    · refine ⟨j :: seen, ?_⟩
      simp only [serializeF, hget, chainNode, if_neg hjnot, if_neg hj1, serializeListF]

theorem chainOut_cons_isErr (e : ErrSpec) (rest : List ErrSpec) :
    isErrNode (chainOut (e :: rest)) = true := by
  cases rest <;> rfl

theorem chainOut_causeDepth :
    ∀ (rest : List ErrSpec) (e : ErrSpec), causeDepth (chainOut (e :: rest)) + 1 = (e :: rest).length := by
  intro rest
  induction rest with
  | nil => intro e; rfl
  | cons e1 rest1 ih =>
    intro e
    have h1 := ih e1
    simp only [chainOut, causeDepth, chainOut_cons_isErr e1 rest1, if_true]
    simp only [chainOut] at h1
    simp only [List.length_cons] at h1 ⊢
    omega

theorem chainOut_nodeAt :
    ∀ (rest : List ErrSpec) (e : ErrSpec) (i : Nat),
      nodeAt (chainOut (e :: rest)) i = (e :: rest).get? i := by
  intro rest
  induction rest with
  | nil =>
    intro e i
    match i with
    | 0 => rfl
    | i + 1 =>
      show nodeAt (.pass .undef) i = List.get? [] i
      cases i <;> rfl
  | cons e1 rest1 ih =>
    intro e i
    match i with
    | 0 => rfl
    | i + 1 =>
      show nodeAt (chainOut (e1 :: rest1)) i = (e1 :: rest1).get? i
      exact ih e1 i


/-! ## MDC frame lemmas -/


theorem execCmd_frame (c : Cmd) (s : MDCState) (n0 : Nat) (hinv : MDCInv n0 s) :
    MDCInv n0 (execCmd c s).1
    ∧ ∀ i, i < n0 → ((execCmd c s).1.heap.get? i = s.heap.get? i) := by
  obtain ⟨hlen, hcur⟩ := hinv
  cases c with
  | put k v =>
    simp only [execCmd]
    cases hc : s.current with
    | none =>
      simp only [MDC.put, hc]
      refine ⟨⟨?_, ?_⟩, ?_⟩
      · simp only [List.length_append, List.length_singleton]; omega
      · intro r hr
        cases hr
        omega
      · intro i hi
        exact List.get?_append (by omega)
    | some r =>
      have hrn : n0 ≤ r := hcur r hc
      simp only [MDC.put, hc]
      cases hg : s.heap.get? r with
      | some store =>
        simp only [hg]
        refine ⟨⟨?_, ?_⟩, ?_⟩
        · simp only [List.length_set]; omega
        · intro r2 hr2
          cases hr2
          omega
        · intro i hi
          exact List.get?_set_ne _ _ (by omega)
      | none =>
        simp only [hg]
        refine ⟨⟨hlen, ?_⟩, fun i hi => trivial⟩
        intro r2 hr2
        rw [hc] at hr2
        cases hr2
        exact hrn
  | putAllNew m =>
    simp only [execCmd]
    have hget : (s.heap ++ [m]).get? s.heap.length = some m := List.get?_concat_length s.heap m
    simp only [MDC.putAll, hget]
    cases hc : s.current with
    | none =>
      refine ⟨⟨?_, ?_⟩, ?_⟩
      · simp only [List.length_append, List.length_singleton]; omega
      · intro r hr
        cases hr
        omega
      · intro i hi
        rw [List.get?_append (by simp only [List.length_append, List.length_singleton]; omega),
          List.get?_append (by omega)]
    | some r =>
      have hrn : n0 ≤ r := hcur r hc
      cases hg : (s.heap ++ [m]).get? r with
      | some store =>
        simp only [hg]
        refine ⟨⟨?_, ?_⟩, ?_⟩
        · simp only [List.length_set, List.length_append, List.length_singleton]; omega
        · intro r2 hr2
          cases hr2
          omega
        · intro i hi
          rw [List.get?_set_ne _ _ (by omega), List.get?_append (by omega)]
      | none =>
        simp only [hg]
        refine ⟨⟨?_, ?_⟩, ?_⟩
        · simp only [List.length_append, List.length_singleton]; omega
        · intro r2 hr2
          cases hr2
          omega
        · intro i hi
          exact List.get?_append (by omega)
  | clear =>
    simp only [execCmd, MDC.clear]
    refine ⟨⟨?_, ?_⟩, ?_⟩
    · simp only [List.length_append, List.length_singleton]; omega
    · intro r hr
      cases hr
      omega
    · intro i hi
      exact List.get?_append (by omega)
  | throwE =>
    exact ⟨⟨hlen, hcur⟩, fun i hi => rfl⟩

theorem execList_frame (cs : List Cmd) :
    ∀ (s : MDCState) (n0 : Nat), MDCInv n0 s →
      MDCInv n0 (execList cs s).1
      ∧ ∀ i, i < n0 → ((execList cs s).1.heap.get? i = s.heap.get? i) := by
  induction cs with
  | nil => exact fun s n0 hinv => ⟨hinv, fun i hi => rfl⟩
  | cons c rest ih =>
    intro s n0 hinv
    obtain ⟨hinv1, hframe1⟩ := execCmd_frame c s n0 hinv
    simp only [execList]
    cases hstep : execCmd c s with
    | mk s1 ok =>
      rw [hstep] at hinv1 hframe1
      cases ok with
      | true =>
        obtain ⟨hinv2, hframe2⟩ := ih s1 n0 hinv1
        exact ⟨hinv2, fun i hi => (hframe2 i hi).trans (hframe1 i hi)⟩
      | false =>
        exact ⟨hinv1, hframe1⟩

theorem MDC.get_at (k : String) (s : MDCState) (c : Nat) (hc : s.current = some c) :
    MDC.get k s = (match s.heap.get? c with
      | some store => objGet store k
      | none => none) := by
  rw [MDC.get, hc]

theorem MDC.get_none (k : String) (s : MDCState) (hc : s.current = none) :
    MDC.get k s = none := by
  rw [MDC.get, hc]

theorem runWithContext_state (mref : Nat) (body : List Cmd) (s : MDCState) :
    (MDC.runWithContext mref body s).1
      = { heap := (execList body { heap := s.heap, current := some mref }).1.heap,
          current := s.current } := by
  rw [MDC.runWithContext]

theorem applySets_not_mem (ops : List (String × WLogger)) :
    ∀ (init : RegMap) (n : String), init n = none → n ∉ ops.map Prod.fst →
      (ops.foldl (fun reg p => RegistryFactory.setLogger p.1 p.2 reg) init) n = none := by
  induction ops with
  | nil =>
    intro init n h _
    exact h
  | cons p rest ih =>
    intro init n hinit hnot
    rw [List.foldl_cons]
    apply ih
    · rw [RegistryFactory.setLogger]
      have hne : n ≠ p.1 := by
        intro he
        exact hnot (by rw [List.map_cons, he]; exact List.mem_cons_self p.1 (rest.map Prod.fst))
      rw [if_neg hne]
      exact hinit
    · intro hmem
      exact hnot (by rw [List.map_cons]; exact List.mem_cons_of_mem p.1 hmem)


/-! ## Claim theorems -/

/-- C1: for every error whose cause chain has length `n` with no repeated
object, `serialize` returns a plain mapping whose nested `cause` mappings
reproduce the chain exactly: the output equals the expected chain
serialization, the number of serialized-error levels equals the number of
chained errors, and at every level `message`, `name` and `stack` equal
those of the corresponding input error (`nodeAt` is `none` beyond the last
level, so the depth is exact). -/
theorem errorChain_depth_and_fields_preserved (specs : List ErrSpec) (hne : specs ≠ []) :
    serializeTop (chainHeap specs) (.vRef 0) = some (chainOut specs)
    ∧ causeDepth (chainOut specs) + 1 = specs.length
    ∧ ∀ i, nodeAt (chainOut specs) i = specs.get? i := by
  have hpos : 0 < specs.length := List.length_pos.mpr hne
  obtain ⟨sF, hser⟩ := serialize_chain specs (unseenErrCount (chainHeap specs) []) 0 []
    hpos (by intro x hx; cases hx) (by rw [chainHeap_errCount]; omega)
  refine ⟨?_, ?_, ?_⟩
  · rw [serializeTop, hser, List.drop_zero]
    rfl
  · match specs, hne with
    | e :: rest, _ => exact chainOut_causeDepth rest e
  · match specs, hne with
    | e :: rest, _ => exact fun i => chainOut_nodeAt rest e i

/-- Witness for C1 at a concrete chain of two errors. -/
theorem errorChain_depth_and_fields_preserved_witness :
    ([⟨"outer", "Error", "s0"⟩, ⟨"inner", "TypeError", "s1"⟩] : List ErrSpec) ≠ []
    ∧ (serializeTop (chainHeap [⟨"outer", "Error", "s0"⟩, ⟨"inner", "TypeError", "s1"⟩]) (.vRef 0)
        = some (chainOut [⟨"outer", "Error", "s0"⟩, ⟨"inner", "TypeError", "s1"⟩])
      ∧ causeDepth (chainOut [⟨"outer", "Error", "s0"⟩, ⟨"inner", "TypeError", "s1"⟩]) + 1
          = ([⟨"outer", "Error", "s0"⟩, ⟨"inner", "TypeError", "s1"⟩] : List ErrSpec).length
      ∧ ∀ i, nodeAt (chainOut [⟨"outer", "Error", "s0"⟩, ⟨"inner", "TypeError", "s1"⟩]) i
          = ([⟨"outer", "Error", "s0"⟩, ⟨"inner", "TypeError", "s1"⟩] : List ErrSpec).get? i) :=
  ⟨by decide,
   errorChain_depth_and_fields_preserved
     [⟨"outer", "Error", "s0"⟩, ⟨"inner", "TypeError", "s1"⟩] (by decide)⟩

/-- C2: `serialize` terminates and throws no exception on every finite
input graph — the embedding evaluates to `some` result with the fuel used
by the top-level call, for arbitrary heaps including self-referential and
mutually-referential ones — and whenever an already-visited Error recurs
it is replaced by the circular-reference sentinel without recursing into
it again (the visited set is returned unchanged). -/
theorem serialize_total_and_cycle_sentinel :
    (∀ (h : SerHeap) (v : JSVal), (serializeTop h v).isSome = true)
    ∧ (∀ (fuel : Nat) (h : SerHeap) (r : Nat) (seen : List Nat),
        r ∈ seen → isErrIdx h r = true →
        serializeF fuel h (.vRef r) seen = some (.sentinel, seen)) := by
  constructor
  · intro h v
    rw [serializeTop]
    cases hs : serializeF (unseenErrCount h []) h v [] with
    | none =>
      have := serializeF_isSome (unseenErrCount h []) h v [] (Nat.le_refl _)
      rw [hs] at this
      cases this
    | some q => rfl
  · intro fuel h r seen hmem herr
    rw [isErrIdx] at herr
    cases hg : h.get? r with
    | none =>
      rw [hg] at herr
      cases herr
    | some o =>
      rw [hg] at herr
      have herr2 : o.err.isSome = true := herr
      cases he : o.err with
      | none =>
        rw [he] at herr2
        cases herr2
      | some e =>
        simp only [serializeF, hg, he, if_pos hmem]

/-- Witness for C2 on the cyclic two-error heap. -/
theorem serialize_total_and_cycle_sentinel_witness :
    (serializeTop exHeapCyc (.vRef 0)).isSome = true
    ∧ (0 ∈ ([0] : List Nat)
       ∧ isErrIdx exHeapCyc 0 = true
       ∧ serializeF 5 exHeapCyc (.vRef 0) [0] = some (.sentinel, [0])) :=
  ⟨serialize_total_and_cycle_sentinel.1 exHeapCyc (.vRef 0),
   by decide, rfl,
   serialize_total_and_cycle_sentinel.2 5 exHeapCyc 0 [0] (by decide) rfl⟩

/-- C3 counterexample: the claim says `serialize` returns a structural
equivalent with no live references back into the input for structured
non-error values too, copying plain-object extra fields recursively.  On
the heap `exHeapRef` — an Error whose enumerable field `data` references
the plain object 1 — the source's final `return value` branch passes the
object through by reference: the output contains the live reference
`vRef 1`, so it is not reference-free. -/
theorem serialize_object_field_by_reference :
    serializeTop exHeapRef (.vRef 0)
      = some (.errObj "boom" "Error" "st0" (.pass .undef) [("data", .pass (.vRef 1))])
    ∧ refFree (.errObj "boom" "Error" "st0" (.pass .undef) [("data", .pass (.vRef 1))]) = false :=
  ⟨rfl, rfl⟩

/-- C3 amended: `serialize` applies recursion and cycle detection only to
`Error` instances; every non-Error value — primitives, plain objects and
arrays alike — is returned as-is (for objects, by reference), and the
visited set is left untouched. -/
theorem serialize_non_error_passthrough :
    ∀ (fuel : Nat) (h : SerHeap) (v : JSVal) (seen : List Nat),
      isErrRef h v = false → serializeF fuel h v seen = some (.pass v, seen) := by
  intro fuel h v seen hv
  cases v with
  | vRef r =>
    rw [isErrRef] at hv
    cases hg : h.get? r with
    | none => simp only [serializeF, hg]
    | some o =>
      rw [hg] at hv
      have hv2 : o.err.isSome = false := hv
      cases he : o.err with
      | some e =>
        rw [he] at hv2
        cases hv2
      | none => simp only [serializeF, hg, he]
  | undef => cases fuel <;> rfl
  | vNull => cases fuel <;> rfl
  | vBool b => cases fuel <;> rfl
  | vNum n => cases fuel <;> rfl
  | vStr s => cases fuel <;> rfl

/-- Witness for the amended C3 at the plain object of `exHeapRef`. -/
theorem serialize_non_error_passthrough_witness :
    isErrRef exHeapRef (.vRef 1) = false
    ∧ serializeF 3 exHeapRef (.vRef 1) [] = some (.pass (.vRef 1), []) :=
  ⟨rfl, serialize_non_error_passthrough 3 exHeapRef (.vRef 1) [] rfl⟩

/-- C9: the visited set is created fresh inside each top-level
`ErrorFormat` invocation (the embedding's `serializeTop` starts from the
empty visited set because the source allocates `new WeakSet()` locally),
so two independent serializations of the same error are the same
deterministic value and neither is the cycle sentinel: the output is a
serialized-error object. -/
theorem serialize_call_scoped_independent :
    ∀ (h : SerHeap) (r : Nat) (o : JSObj),
      h.get? r = some o → o.err.isSome = true →
      serializeTop h (.vRef r) = serializeTop h (.vRef r)
      ∧ ∃ m n s c fs, serializeTop h (.vRef r) = some (.errObj m n s c fs)
        ∧ SVal.errObj m n s c fs ≠ SVal.sentinel := by
  intro h r o hg hoe
  refine ⟨rfl, ?_⟩
  cases he : o.err with
  | none =>
    rw [he] at hoe
    cases hoe
  | some e =>
    have herr : isErrIdx h r = true := by
      rw [isErrIdx, hg]
      exact hoe
    have hrl : r < h.length := get?_lt_length hg
    have hpos : 0 < unseenErrCount h [] := by
      have := unseenErrCount_cons_lt h [] r herr (by intro hx; cases hx) hrl
      omega
    cases hcount : unseenErrCount h [] with
    | zero => omega
    | succ f' =>
      have hS : (serializeF (f' + 1) h (.vRef r) []).isSome = true := by
        rw [← hcount]
        exact serializeF_isSome _ h (.vRef r) [] (Nat.le_refl _)
      obtain ⟨q, hq⟩ := Option.isSome_iff_exists.mp hS
      have hq2 := hq
      simp only [serializeF, hg, he, if_neg (List.not_mem_nil r)] at hq2
      split at hq2
      · cases hq2
      · rename_i cs sn1 hcz
        split at hq2
        · cases hq2
        · rename_i fs sn2 hlz
          injection hq2 with hq3
          refine ⟨e.message, e.name, e.stack, cs, fs, ?_, ?_⟩
          · rw [serializeTop, hcount, hq, ← hq3]
            rfl
          · intro hx
            cases hx

/-- Witness for C9 at the cyclic heap's outer error. -/
theorem serialize_call_scoped_independent_witness :
    List.get? exHeapCyc 0 = some
      { err := some { message := "outer", name := "Error", stack := "s0",
                      cause := some (.vRef 1) }, fields := [] }
    ∧ (serializeTop exHeapCyc (.vRef 0) = serializeTop exHeapCyc (.vRef 0)
       ∧ ∃ m n s c fs, serializeTop exHeapCyc (.vRef 0) = some (.errObj m n s c fs)
         ∧ SVal.errObj m n s c fs ≠ SVal.sentinel) :=
  ⟨rfl, serialize_call_scoped_independent exHeapCyc 0
    { err := some { message := "outer", name := "Error", stack := "s0",
                    cause := some (.vRef 1) }, fields := [] } rfl rfl⟩

/-- C4 (code bug): the claim — putAll merges with put semantics, keeping
keys of the previous context that the argument map does not mention —
fails on the code.  `putAll` merges the argument's entries into the old
store object but then calls `enterWith(context)` with the argument object
itself, so the merged store is abandoned: starting from current context
`a ↦ 1` with the argument map `b ↦ 2` at reference 1, after `putAll` the
key `b` reads `2` but the pre-existing key `a` reads absent, although the
operation's own documentation and the claim require `1`. -/
theorem putAll_replaces_context :
    MDC.putAll 1 { heap := [[("a", "1")], [("b", "2")]], current := some 0 }
      = .ok { heap := [[("a", "1"), ("b", "2")], [("b", "2")]], current := some 1 }
    ∧ MDC.get "a" { heap := [[("a", "1")], [("b", "2")]], current := some 0 } = some "1"
    ∧ MDC.get "a" { heap := [[("a", "1"), ("b", "2")], [("b", "2")]], current := some 1 } = none
    ∧ MDC.get "b" { heap := [[("a", "1"), ("b", "2")], [("b", "2")]], current := some 1 }
        = some "2" :=
  ⟨rfl, rfl, rfl, rfl⟩

/-- C5 counterexample: the claim quantifies over every initial map; when
the caller passes the very object that is its current store (reachable in
the source via `MDC.putAll(m)` followed by `MDC.runWithContext(m, body)`,
since `putAll` installs the caller's object by reference), a `put` inside
the body mutates that shared object in place, and after `run` restores the
previous store — the same object — the caller reads the mutated value `2`
instead of its pre-call value `1`. -/
theorem runWithContext_aliased_leak :
    MDC.putAll 0 { heap := [[("a", "1")]], current := none }
      = .ok { heap := [[("a", "1")], [("a", "1")]], current := some 0 }
    ∧ MDC.get "a" { heap := [[("a", "1")], [("a", "1")]], current := some 0 } = some "1"
    ∧ MDC.get "a" (MDC.runWithContext 0 [Cmd.put "a" "2"]
        { heap := [[("a", "1")], [("a", "1")]], current := some 0 }).1 = some "2"
    ∧ MDC.get "a" (MDC.runWithContext 0 [Cmd.put "a" "2"]
        { heap := [[("a", "1")], [("a", "1")]], current := some 0 }).1
      ≠ MDC.get "a" { heap := [[("a", "1")], [("a", "1")]], current := some 0 } := by
  refine ⟨rfl, rfl, rfl, ?_⟩
  decide

/-- C5 amended: when the initial map is a freshly allocated object — not
aliased with the caller's current store — `runWithContext` is properly
scoped for every body of MDC operations: at entry the body observes the
initial map as its context, and after the call returns or the body throws,
every `get` in the caller reads exactly its pre-call value. -/
theorem runWithContext_fresh_scoped (s : MDCState) (m : Ctx) (body : List Cmd) (k : String)
    (hwf : ∀ r, s.current = some r → r < s.heap.length) :
    MDC.get k { heap := s.heap ++ [m], current := some s.heap.length } = objGet m k
    ∧ MDC.get k (MDC.runWithContext s.heap.length body
        { heap := s.heap ++ [m], current := s.current }).1 = MDC.get k s := by
  constructor
  · rw [MDC.get_at k _ s.heap.length rfl]
    rw [List.get?_concat_length]
  · have hinv : MDCInv s.heap.length
        { heap := s.heap ++ [m], current := some s.heap.length } := by
      constructor
      · simp only [List.length_append, List.length_singleton]
        omega
      · intro r hr
        cases hr
        exact Nat.le_refl _
    obtain ⟨hinv2, hframe⟩ := execList_frame body _ _ hinv
    rw [runWithContext_state]
    cases hc : s.current with
    | none =>
      rw [MDC.get_none k _ rfl, MDC.get_none k s hc]
    | some c =>
      have hcl : c < s.heap.length := hwf c hc
      rw [MDC.get_at k _ c rfl, MDC.get_at k s c hc]
      rw [hframe c hcl, List.get?_append hcl]

/-- Witness for the amended C5: a caller whose store maps `b ↦ 9` runs a
body that sets `a ↦ 2` inside a fresh context `a ↦ 1`; the body observes
`a ↦ 1`, and afterwards the caller's `a` is still absent. -/
theorem runWithContext_fresh_scoped_witness :
    (∀ r, (some 0 : Option Nat) = some r → r < 1)
    ∧ (MDC.get "a" { heap := [[("b", "9")], [("a", "1")]], current := some 1 }
        = objGet [("a", "1")] "a"
      ∧ MDC.get "a" (MDC.runWithContext 1 [Cmd.put "a" "2"]
          { heap := [[("b", "9")], [("a", "1")]], current := some 0 }).1
        = MDC.get "a" { heap := [[("b", "9")]], current := some 0 }) :=
  ⟨fun r hr => by cases hr; exact Nat.zero_lt_one,
   runWithContext_fresh_scoped { heap := [[("b", "9")]], current := some 0 }
     [("a", "1")] [Cmd.put "a" "2"] "a"
     (fun r hr => by cases hr; exact Nat.zero_lt_one)⟩

/-- C7: the context operations never throw.  `get` with no active context
returns absent rather than raising; `put` and `putAll` return `.ok` on
every well-formed state (their only error branches model dangling store
references, which no API-produced state contains — the source guards the
absent-store case by allocating a fresh object); `clear` is embedded as a
total function and so cannot fail; and `runWithContext` itself adds no
failure: its thrown-flag is exactly the body's. -/
theorem mdc_ops_never_throw :
    (∀ (k : String) (s : MDCState), s.current = none → MDC.get k s = none)
    ∧ (∀ (k v : String) (s : MDCState), MDCWF s → (MDC.put k v s).isOk = true)
    ∧ (∀ (mref : Nat) (s : MDCState), MDCWF s → mref < s.heap.length →
        (MDC.putAll mref s).isOk = true)
    ∧ (∀ (mref : Nat) (body : List Cmd) (s : MDCState),
        (MDC.runWithContext mref body s).2 = (execList body { s with current := some mref }).2) := by
  refine ⟨?_, ?_, ?_, ?_⟩
  · intro k s hc
    exact MDC.get_none k s hc
  · intro k v s hwf
    cases hc : s.current with
    | none =>
      rw [MDC.put]
      simp only [hc]
      rfl
    | some r =>
      have hrl : r < s.heap.length := hwf r hc
      cases hg : s.heap.get? r with
      | some store =>
        rw [MDC.put]
        simp only [hc, hg]
        rfl
      | none =>
        exfalso
        rw [List.get?_eq_none] at hg
        omega
  · intro mref s hwf hml
    cases hgm : s.heap.get? mref with
    | none =>
      exfalso
      rw [List.get?_eq_none] at hgm
      omega
    | some ctx =>
      cases hc : s.current with
      | none =>
        rw [MDC.putAll]
        simp only [hgm, hc]
        rfl
      | some r =>
        have hrl : r < s.heap.length := hwf r hc
        cases hg : s.heap.get? r with
        | some store =>
          rw [MDC.putAll]
          simp only [hgm, hc, hg]
          rfl
        | none =>
          exfalso
          rw [List.get?_eq_none] at hg
          omega
  · intro mref body s
    rfl

/-- Witness for C7 at concrete states. -/
theorem mdc_ops_never_throw_witness :
    MDC.get "k" { heap := [], current := none } = none
    ∧ (MDC.put "k" "v" { heap := [[("a", "1")]], current := some 0 }).isOk = true
    ∧ (MDC.putAll 0 { heap := [[("a", "1")]], current := none }).isOk = true
    ∧ (MDC.runWithContext 0 [Cmd.throwE] { heap := [[]], current := none }).2
        = (execList [Cmd.throwE] { heap := [[]], current := some 0 }).2 :=
  ⟨mdc_ops_never_throw.1 "k" { heap := [], current := none } rfl,
   mdc_ops_never_throw.2.1 "k" "v" { heap := [[("a", "1")]], current := some 0 }
     (fun r hr => by cases hr; exact Nat.zero_lt_one),
   mdc_ops_never_throw.2.2.1 0 { heap := [[("a", "1")]], current := none }
     (fun r hr => by cases hr) Nat.zero_lt_one,
   mdc_ops_never_throw.2.2.2 0 [Cmd.throwE] { heap := [[]], current := none }⟩

/-- C6: when the construction inside `createLogger`'s try block throws, the
call fails with a `BaseException` whose `cause` is the original error and
whose code is 500, and the previously installed singleton is returned
unchanged — the singleton is only assigned after `winston.createLogger`
returns, so no partially-constructed logger is ever installed
(construct-then-swap). -/
theorem createLogger_failure_keeps_singleton
    (wcreate : WinstonConfig → Except JsErr WLogger) (options : Option LoggerOptions)
    (st : Option WLogger) (e : JsErr)
    (hfail : wcreate (resolveConfig options) = .error e) :
    LoggerFactory.createLogger wcreate options st
      = (st, .error { message := "Error creating logger", cause := some e, code := some 500 }) := by
  rw [LoggerFactory.createLogger, hfail]

/-- Witness for C6: a winston constructor that always throws leaves the
previously installed singleton in place and wraps the failure. -/
theorem createLogger_failure_keeps_singleton_witness :
    (fun _ : WinstonConfig => (.error ⟨"sink exploded"⟩ : Except JsErr WLogger))
        (resolveConfig none) = .error ⟨"sink exploded"⟩
    ∧ LoggerFactory.createLogger (fun _ => .error ⟨"sink exploded"⟩) none (some exLogger)
      = (some exLogger,
         .error { message := "Error creating logger", cause := some ⟨"sink exploded"⟩,
                  code := some 500 }) :=
  ⟨rfl, createLogger_failure_keeps_singleton (fun _ => .error ⟨"sink exploded"⟩) none
    (some exLogger) ⟨"sink exploded"⟩ rfl⟩

/-- C8: `getLogger` succeeds for every label even when no base logger has
been constructed yet — it lazily builds one from the default options and
installs it — and in both the lazy and the already-initialized case the
result is `child` of the singleton base logger; the child view merges
`label` into the metadata of every record it emits. -/
theorem getLogger_lazy_and_labelled
    (wcreate : WinstonConfig → Except JsErr WLogger) (label : String) (lg0 : WLogger)
    (hok : wcreate (resolveConfig none) = .ok lg0) :
    LoggerFactory.getLogger wcreate label none
      = (some lg0, .ok (lg0.child [("label", label)]))
    ∧ (∀ base : WLogger, LoggerFactory.getLogger wcreate label (some base)
        = (some base, .ok (base.child [("label", label)])))
    ∧ (∀ (base : WLogger) (record : List (String × String)),
        objGet ((base.child [("label", label)]).emit record) "label" = some label) := by
  refine ⟨?_, ?_, ?_⟩
  · rw [LoggerFactory.getLogger, LoggerFactory.createLogger, hok]
  · intro base
    rw [LoggerFactory.getLogger]
  · intro base record
    rw [WLogger.emit, WLogger.child]
    have hmeta : mergeObj base.childMeta [("label", label)]
        = objSet base.childMeta "label" label := rfl
    rw [hmeta]
    exact objGet_mergeObj_of_key (objSet base.childMeta "label" label) record "label" label
      (objSet_key_vals base.childMeta "label" label)
      (objSet_contains base.childMeta "label" label)

/-- Witness for C8 with the default winston construction and label `Mod`. -/
theorem getLogger_lazy_and_labelled_witness :
    defaultWCreate (resolveConfig none) = .ok exLogger
    ∧ (LoggerFactory.getLogger defaultWCreate "Mod" none
        = (some exLogger, .ok (exLogger.child [("label", "Mod")]))
      ∧ (∀ base : WLogger, LoggerFactory.getLogger defaultWCreate "Mod" (some base)
          = (some base, .ok (base.child [("label", "Mod")])))
      ∧ (∀ (base : WLogger) (record : List (String × String)),
          objGet ((base.child [("label", "Mod")]).emit record) "label" = some "Mod")) :=
  ⟨rfl, getLogger_lazy_and_labelled defaultWCreate "Mod" exLogger rfl⟩

/-- C10: in the named-logger registry, `getLogger` after `setLogger` of the
same name returns exactly the stored logger, `setLogger` leaves every
other name unchanged, and a name never stored — after any sequence of
`setLogger` calls on other names starting from the empty map — reads as
`undefined`. -/
theorem registry_get_set (reg : RegMap) (n n2 : String) (lg : WLogger) :
    RegistryFactory.getLogger n (RegistryFactory.setLogger n lg reg) = some lg
    ∧ (n2 ≠ n → RegistryFactory.getLogger n2 (RegistryFactory.setLogger n lg reg)
        = RegistryFactory.getLogger n2 reg)
    ∧ (∀ ops : List (String × WLogger), n ∉ ops.map Prod.fst →
        RegistryFactory.getLogger n (applySets ops) = none) := by
  refine ⟨?_, ?_, ?_⟩
  · rw [RegistryFactory.getLogger, RegistryFactory.setLogger, if_pos rfl]
  · intro hne
    rw [RegistryFactory.getLogger, RegistryFactory.setLogger, if_neg hne,
      RegistryFactory.getLogger]
  · intro ops hnot
    rw [RegistryFactory.getLogger, applySets]
    exact applySets_not_mem ops emptyReg n rfl hnot

/-- Witness for C10 with concrete names. -/
theorem registry_get_set_witness :
    RegistryFactory.getLogger "a" (RegistryFactory.setLogger "a" exLogger emptyReg)
        = some exLogger
    ∧ ("b" ≠ "a"
       ∧ RegistryFactory.getLogger "b" (RegistryFactory.setLogger "a" exLogger emptyReg)
          = RegistryFactory.getLogger "b" emptyReg)
    ∧ ("a" ∉ ([("c", exLogger)].map Prod.fst)
       ∧ RegistryFactory.getLogger "a" (applySets [("c", exLogger)]) = none) :=
  ⟨(registry_get_set emptyReg "a" "b" exLogger).1,
   ⟨by decide, (registry_get_set emptyReg "a" "b" exLogger).2.1 (by decide)⟩,
   ⟨by decide, (registry_get_set emptyReg "a" "b" exLogger).2.2 [("c", exLogger)] (by decide)⟩⟩
